import Mathlib

/-!
Verification of `src/process_icon.py` (restdock).

The script decodes an image to RGBA, sets every pixel's alpha to 0 when
its red, green and blue channels are each strictly greater than 240 and
to 255 otherwise, crops the image to the bounding box of its
nonzero-alpha pixels when that box exists, and saves the result.

We embed the in-memory part of the pipeline (between decode and encode):
an image is a width, a height and a total pixel function; only the
values at coordinates inside the extent are meaningful.
-/

/-- One RGBA pixel; channel values live in `[0, 255]` in the program,
but none of the proved properties needs that bound. -/
structure Pixel where
  r : Nat
  g : Nat
  b : Nat
  a : Nat
deriving DecidableEq, Repr

/-- A decoded image: a 2-D grid of pixels.  `pixel x y` is the pixel in
column `x`, row `y`; values outside the extent are irrelevant junk. -/
structure Image where
  width : Nat
  height : Nat
  pixel : Nat → Nat → Pixel

/-- The background mask of `white_areas = (r > 240) & (g > 240) & (b > 240)`,
expressed per pixel. -/
def white_areas (p : Pixel) : Bool :=
  decide (240 < p.r) && decide (240 < p.g) && decide (240 < p.b)

/-- The alpha-rewriting step `data[..., 3] = np.where(white_areas.T, 0, 255)`:
every pixel's alpha becomes 0 on background pixels and 255 elsewhere;
the red, green and blue channels are untouched. -/
def setAlpha (img : Image) : Image :=
  { img with
    pixel := fun x y =>
      let p := img.pixel x y
      { p with a := if white_areas p then 0 else 255 } }

/-- A bounding box in PIL's convention: `left`/`top` inclusive,
`right`/`bottom` exclusive. -/
structure BBox where
  left : Nat
  top : Nat
  right : Nat
  bottom : Nat
deriving DecidableEq, Repr

/-- The coordinates inside the extent whose pixel has nonzero alpha:
the pixels PIL's `getbbox` (alpha-based, its default for RGBA) ranges
over. -/
def content (img : Image) : Finset (Nat × Nat) :=
  (Finset.range img.width ×ˢ Finset.range img.height).filter
    (fun c => (img.pixel c.1 c.2).a ≠ 0)

/-- Bounding box of a finite set of coordinates: `none` when the set is
empty, otherwise the minimal rectangle (exclusive right/bottom edges)
containing it. -/
def bboxOf (s : Finset (Nat × Nat)) : Option BBox :=
  if h : s.Nonempty then
    some
      { left := (s.image Prod.fst).min' (h.image Prod.fst)
        top := (s.image Prod.snd).min' (h.image Prod.snd)
        right := (s.image Prod.fst).max' (h.image Prod.fst) + 1
        bottom := (s.image Prod.snd).max' (h.image Prod.snd) + 1 }
  else none

/-- `img_transparent.getbbox()`: the bounding box of the nonzero-alpha
pixels, or `none` when the image is fully transparent. -/
def getbbox (img : Image) : Option BBox :=
  bboxOf (content img)

/-- `img.crop(box)`: the sub-image of extent
`(right - left) × (bottom - top)` whose pixel at `(x, y)` is the source
pixel at `(left + x, top + y)`.  The program only ever crops to a box
returned by `getbbox`, which lies inside the extent. -/
def crop (img : Image) (box : BBox) : Image :=
  { width := box.right - box.left
    height := box.bottom - box.top
    pixel := fun x y => img.pixel (box.left + x) (box.top + y) }

/-- The in-memory pipeline of `process_icon`: rewrite alpha, then crop
to the bounding box when one exists. -/
def process_icon (img : Image) : Image :=
  let img_transparent := setAlpha img
  match getbbox img_transparent with
  | some bbox => crop img_transparent bbox
  | none => img_transparent

/-- The `__main__` block, abstracting the two side-effecting calls:
whether the usage line was printed, the exit code when the script
itself decides it (the usage path falls off the end of the program,
exiting normally), and which arguments the processor was invoked on. -/
structure CliRun where
  usagePrinted : Bool
  exitCode : Option Nat
  invoked : Option (String × String)
deriving DecidableEq

/-- `if len(sys.argv) < 3: print(usage) else: process_icon(argv[1], argv[2])`.
In the processing branch the exit code is whatever the processor run
produces, so the model leaves it undetermined (`none`). -/
def cliMain (argv : List String) : CliRun :=
  if argv.length < 3 then
    { usagePrinted := true, exitCode := some 0, invoked := none }
  else
    { usagePrinted := false, exitCode := none
      invoked := some (argv.getD 1 "", argv.getD 2 "") }

/-! ### Basic lemmas -/

theorem white_areas_iff (p : Pixel) :
    white_areas p = true ↔ 240 < p.r ∧ 240 < p.g ∧ 240 < p.b := by
  simp [white_areas, and_assoc]

theorem setAlpha_rgb (img : Image) (x y : Nat) :
    ((setAlpha img).pixel x y).r = (img.pixel x y).r ∧
    ((setAlpha img).pixel x y).g = (img.pixel x y).g ∧
    ((setAlpha img).pixel x y).b = (img.pixel x y).b := by
  refine ⟨rfl, rfl, rfl⟩

theorem setAlpha_alpha (img : Image) (x y : Nat) :
    ((setAlpha img).pixel x y).a =
      if white_areas (img.pixel x y) then 0 else 255 := rfl

theorem mem_content {img : Image} {c : Nat × Nat} :
    c ∈ content img ↔
      c.1 < img.width ∧ c.2 < img.height ∧ (img.pixel c.1 c.2).a ≠ 0 := by
  simp [content, and_assoc]

theorem bboxOf_eq_none_iff {s : Finset (Nat × Nat)} :
    bboxOf s = none ↔ s = ∅ := by
  rw [bboxOf]
  by_cases h : s.Nonempty
  · rw [dif_pos h]
    simp [Finset.nonempty_iff_ne_empty.mp h]
  · rw [dif_neg h]
    simp [Finset.not_nonempty_iff_eq_empty.mp h]

/-- The bounding box of a set of coordinates is `some box` exactly when
each edge of `box` touches a member and every member lies inside it. -/
theorem bboxOf_eq_some_iff {s : Finset (Nat × Nat)} {box : BBox} :
    bboxOf s = some box ↔
      (∃ c ∈ s, c.1 = box.left) ∧ (∃ c ∈ s, c.2 = box.top) ∧
      (∃ c ∈ s, c.1 + 1 = box.right) ∧ (∃ c ∈ s, c.2 + 1 = box.bottom) ∧
      ∀ c ∈ s, box.left ≤ c.1 ∧ c.1 < box.right ∧
        box.top ≤ c.2 ∧ c.2 < box.bottom := by
  obtain ⟨bl, bt, br, bb⟩ := box
  simp only
  constructor
  · intro h
    have hne : s.Nonempty := by
      by_contra hne
      rw [bboxOf, dif_neg hne] at h
      exact Option.noConfusion h
    rw [bboxOf, dif_pos hne] at h
    obtain ⟨h1, h2, h3, h4⟩ := BBox.mk.injEq .. ▸ Option.some.inj h
    refine ⟨?_, ?_, ?_, ?_, ?_⟩
    · obtain ⟨c, hc, hce⟩ :=
        Finset.mem_image.mp ((s.image Prod.fst).min'_mem (hne.image Prod.fst))
      exact ⟨c, hc, hce.trans h1⟩
    · obtain ⟨c, hc, hce⟩ :=
        Finset.mem_image.mp ((s.image Prod.snd).min'_mem (hne.image Prod.snd))
      exact ⟨c, hc, hce.trans h2⟩
    · obtain ⟨c, hc, hce⟩ :=
        Finset.mem_image.mp ((s.image Prod.fst).max'_mem (hne.image Prod.fst))
      exact ⟨c, hc, by omega⟩
    · obtain ⟨c, hc, hce⟩ :=
        Finset.mem_image.mp ((s.image Prod.snd).max'_mem (hne.image Prod.snd))
      exact ⟨c, hc, by omega⟩
    · intro c hc
      have hminx := (s.image Prod.fst).min'_le c.1
        (Finset.mem_image_of_mem Prod.fst hc)
      have hmaxx := (s.image Prod.fst).le_max' c.1
        (Finset.mem_image_of_mem Prod.fst hc)
      have hminy := (s.image Prod.snd).min'_le c.2
        (Finset.mem_image_of_mem Prod.snd hc)
      have hmaxy := (s.image Prod.snd).le_max' c.2
        (Finset.mem_image_of_mem Prod.snd hc)
      omega
  · rintro ⟨⟨cl, hcl, hcl1⟩, ⟨ct, hct, hct2⟩, ⟨cr, hcr, hcr1⟩,
      ⟨cb, hcb, hcb2⟩, hbd⟩
    have hne : s.Nonempty := ⟨cl, hcl⟩
    rw [bboxOf, dif_pos hne]
    have e1 : (s.image Prod.fst).min' (hne.image Prod.fst) = bl := by
      apply le_antisymm
      · exact Finset.min'_le _ _ (hcl1 ▸ Finset.mem_image_of_mem Prod.fst hcl)
      · apply Finset.le_min'
        intro x hx
        obtain ⟨c, hc, rfl⟩ := Finset.mem_image.mp hx
        exact (hbd c hc).1
    have e2 : (s.image Prod.snd).min' (hne.image Prod.snd) = bt := by
      apply le_antisymm
      · exact Finset.min'_le _ _ (hct2 ▸ Finset.mem_image_of_mem Prod.snd hct)
      · apply Finset.le_min'
        intro y hy
        obtain ⟨c, hc, rfl⟩ := Finset.mem_image.mp hy
        exact (hbd c hc).2.2.1
    have e3 : (s.image Prod.fst).max' (hne.image Prod.fst) + 1 = br := by
      have hm : (s.image Prod.fst).max' (hne.image Prod.fst) = br - 1 := by
        apply le_antisymm
        · apply Finset.max'_le
          intro x hx
          obtain ⟨c, hc, rfl⟩ := Finset.mem_image.mp hx
          have := (hbd c hc).2.1
          omega
        · apply Finset.le_max'
          have he : cr.1 = br - 1 := by omega
          exact he ▸ Finset.mem_image_of_mem Prod.fst hcr
      omega
    have e4 : (s.image Prod.snd).max' (hne.image Prod.snd) + 1 = bb := by
      have hm : (s.image Prod.snd).max' (hne.image Prod.snd) = bb - 1 := by
        apply le_antisymm
        · apply Finset.max'_le
          intro y hy
          obtain ⟨c, hc, rfl⟩ := Finset.mem_image.mp hy
          have := (hbd c hc).2.2.2
          omega
        · apply Finset.le_max'
          have he : cb.2 = bb - 1 := by omega
          exact he ▸ Finset.mem_image_of_mem Prod.snd hcb
      omega
    rw [e1, e2, e3, e4]

/-- A bounding box returned by `getbbox` lies inside the image extent. -/
theorem getbbox_subset {img : Image} {box : BBox}
    (h : getbbox img = some box) :
    box.left < box.right ∧ box.top < box.bottom ∧
    box.right ≤ img.width ∧ box.bottom ≤ img.height := by
  obtain ⟨⟨cl, hcl, hcl1⟩, ⟨ct, hct, hct2⟩, ⟨cr, hcr, hcr1⟩,
    ⟨cb, hcb, hcb2⟩, hbd⟩ := bboxOf_eq_some_iff.mp h
  obtain ⟨hclw, hclh, -⟩ := mem_content.mp hcl
  obtain ⟨hcrw, hcrh, -⟩ := mem_content.mp hcr
  obtain ⟨hcbw, hcbh, -⟩ := mem_content.mp hcb
  have h1 := hbd cl hcl
  have h2 := hbd ct hct
  omega

/-- Cropping an image to its own bounding box yields an image whose
bounding box is its full extent. -/
theorem getbbox_crop {img : Image} {box : BBox}
    (h : getbbox img = some box) :
    getbbox (crop img box) =
      some ⟨0, 0, box.right - box.left, box.bottom - box.top⟩ := by
  obtain ⟨⟨cl, hcl, hcl1⟩, ⟨ct, hct, hct2⟩, ⟨cr, hcr, hcr1⟩,
    ⟨cb, hcb, hcb2⟩, hbd⟩ := bboxOf_eq_some_iff.mp h
  have shift : ∀ d ∈ content img,
      (d.1 - box.left, d.2 - box.top) ∈ content (crop img box) := by
    intro d hd
    obtain ⟨hd1, hd2, hd3, hd4⟩ := hbd d hd
    obtain ⟨hdw, hdh, hda⟩ := mem_content.mp hd
    rw [mem_content]
    refine ⟨by simp only [crop]; omega, by simp only [crop]; omega, ?_⟩
    have e1 : box.left + (d.1 - box.left) = d.1 := by omega
    have e2 : box.top + (d.2 - box.top) = d.2 := by omega
    show (img.pixel (box.left + (d.1 - box.left))
      (box.top + (d.2 - box.top))).a ≠ 0
    rw [e1, e2]
    exact hda
  show bboxOf (content (crop img box)) = _
  rw [bboxOf_eq_some_iff]
  refine ⟨⟨_, shift cl hcl, ?_⟩, ⟨_, shift ct hct, ?_⟩,
    ⟨_, shift cr hcr, ?_⟩, ⟨_, shift cb hcb, ?_⟩, ?_⟩
  · show cl.1 - box.left = 0
    omega
  · show ct.2 - box.top = 0
    omega
  · show cr.1 - box.left + 1 = box.right - box.left
    have := hbd cr hcr
    omega
  · show cb.2 - box.top + 1 = box.bottom - box.top
    have := hbd cb hcb
    omega
  · intro c hc
    obtain ⟨hc1, hc2, -⟩ := mem_content.mp hc
    simp only [crop] at hc1 hc2
    simp only
    omega

/-! ### Claim C1 -/

/-- C1: after the alpha-rewriting step, every pixel of the image has
alpha 0 exactly when its red, green and blue channels each exceed 240,
and alpha 255 otherwise, regardless of the original alpha value. -/
theorem setAlpha_alpha_eq (img : Image) (x y : Nat)
    (hx : x < img.width) (hy : y < img.height) :
    ((setAlpha img).pixel x y).a =
      if 240 < (img.pixel x y).r ∧ 240 < (img.pixel x y).g ∧
          240 < (img.pixel x y).b then 0 else 255 := by
  rw [setAlpha_alpha]
  by_cases h : 240 < (img.pixel x y).r ∧ 240 < (img.pixel x y).g ∧
      240 < (img.pixel x y).b
  · rw [if_pos ((white_areas_iff _).mpr h), if_pos h]
  · rw [if_neg (fun hw => h ((white_areas_iff _).mp hw)), if_neg h]

/-- A concrete 1×1 image used as a witness input. -/
def onePixel : Image :=
  { width := 1, height := 1, pixel := fun _ _ => ⟨10, 20, 30, 7⟩ }

theorem setAlpha_alpha_eq_witness :
    0 < onePixel.width ∧ 0 < onePixel.height ∧
    ((setAlpha onePixel).pixel 0 0).a =
      if 240 < (onePixel.pixel 0 0).r ∧ 240 < (onePixel.pixel 0 0).g ∧
          240 < (onePixel.pixel 0 0).b then 0 else 255 :=
  ⟨by decide, by decide,
    setAlpha_alpha_eq onePixel 0 0 (by decide) (by decide)⟩

/-! ### Claim C2 -/

/-- C2: when some pixel has nonzero alpha after the alpha-rewriting
step, the output's dimensions are `(right - left, bottom - top)` of the
bounding box of the nonzero-alpha pixels of the pre-crop image. -/
theorem crop_dims_eq_bbox (img : Image)
    (h : ∃ x < img.width, ∃ y < img.height,
      ((setAlpha img).pixel x y).a ≠ 0) :
    ∃ box, getbbox (setAlpha img) = some box ∧
      (process_icon img).width = box.right - box.left ∧
      (process_icon img).height = box.bottom - box.top := by
  obtain ⟨x, hx, y, hy, ha⟩ := h
  have hne : (content (setAlpha img)).Nonempty :=
    ⟨(x, y), mem_content.mpr ⟨hx, hy, ha⟩⟩
  have hsome : ∃ box, getbbox (setAlpha img) = some box := by
    rw [getbbox, bboxOf, dif_pos hne]
    exact ⟨_, rfl⟩
  obtain ⟨box, hbox⟩ := hsome
  refine ⟨box, hbox, ?_, ?_⟩
  · simp only [process_icon, hbox, crop]
  · simp only [process_icon, hbox, crop]

/-- A concrete 2×2 image with one dark pixel at the origin. -/
def dotImage : Image :=
  { width := 2, height := 2
    pixel := fun x y =>
      if x = 0 ∧ y = 0 then ⟨0, 0, 0, 255⟩ else ⟨255, 255, 255, 255⟩ }

theorem crop_dims_eq_bbox_witness :
    (∃ x < dotImage.width, ∃ y < dotImage.height,
      ((setAlpha dotImage).pixel x y).a ≠ 0) ∧
    ∃ box, getbbox (setAlpha dotImage) = some box ∧
      (process_icon dotImage).width = box.right - box.left ∧
      (process_icon dotImage).height = box.bottom - box.top :=
  ⟨by decide, crop_dims_eq_bbox dotImage (by decide)⟩

/-! ### Claim C4 -/

/-- C4: an input all of whose pixels are background (red, green and blue
each above 240) yields a fully transparent output of the input's size,
with no bounding box and hence no crop. -/
theorem all_background_no_crop (img : Image)
    (h : ∀ x < img.width, ∀ y < img.height,
      240 < (img.pixel x y).r ∧ 240 < (img.pixel x y).g ∧
        240 < (img.pixel x y).b) :
    getbbox (setAlpha img) = none ∧
    (process_icon img).width = img.width ∧
    (process_icon img).height = img.height ∧
    ∀ x < img.width, ∀ y < img.height,
      ((process_icon img).pixel x y).a = 0 := by
  have hempty : content (setAlpha img) = ∅ := by
    ext c
    simp only [Finset.not_mem_empty, iff_false]
    intro hc
    obtain ⟨h1, h2, h3⟩ := mem_content.mp hc
    have hw := (white_areas_iff (img.pixel c.1 c.2)).mpr (h c.1 h1 c.2 h2)
    exact h3 (by rw [setAlpha_alpha, if_pos hw])
  have hnone : getbbox (setAlpha img) = none :=
    bboxOf_eq_none_iff.mpr hempty
  have hout : process_icon img = setAlpha img := by
    simp only [process_icon, hnone]
  refine ⟨hnone, by rw [hout]; exact rfl, by rw [hout]; exact rfl, ?_⟩
  intro x hx y hy
  rw [hout, setAlpha_alpha, if_pos ((white_areas_iff _).mpr (h x hx y hy))]

/-- A concrete 2×2 all-white image. -/
def whiteImage : Image :=
  { width := 2, height := 2, pixel := fun _ _ => ⟨255, 255, 255, 255⟩ }

theorem all_background_no_crop_witness :
    (∀ x < whiteImage.width, ∀ y < whiteImage.height,
      240 < (whiteImage.pixel x y).r ∧ 240 < (whiteImage.pixel x y).g ∧
        240 < (whiteImage.pixel x y).b) ∧
    (getbbox (setAlpha whiteImage) = none ∧
      (process_icon whiteImage).width = whiteImage.width ∧
      (process_icon whiteImage).height = whiteImage.height ∧
      ∀ x < whiteImage.width, ∀ y < whiteImage.height,
        ((process_icon whiteImage).pixel x y).a = 0) :=
  ⟨by decide, all_background_no_crop whiteImage (by decide)⟩

/-! ### Claim C3 -/

/-- C3: the output's bounding box of nonzero-alpha pixels is the
output's full extent, or, when no pixel survives as opaque, the output
keeps the input's dimensions and is fully transparent. -/
theorem output_bbox_full_extent (img : Image) :
    getbbox (process_icon img) =
      some ⟨0, 0, (process_icon img).width, (process_icon img).height⟩ ∨
    (getbbox (setAlpha img) = none ∧
      (process_icon img).width = img.width ∧
      (process_icon img).height = img.height ∧
      ∀ x < img.width, ∀ y < img.height,
        ((process_icon img).pixel x y).a = 0) := by
  cases hbox : getbbox (setAlpha img) with
  | none =>
    right
    have hout : process_icon img = setAlpha img := by
      simp only [process_icon, hbox]
    have hempty : content (setAlpha img) = ∅ := bboxOf_eq_none_iff.mp hbox
    refine ⟨rfl, by rw [hout]; exact rfl, by rw [hout]; exact rfl, ?_⟩
    intro x hx y hy
    rw [hout, setAlpha_alpha]
    by_cases hw : white_areas (img.pixel x y)
    · rw [if_pos hw]
    · exfalso
      have hmem : (x, y) ∈ content (setAlpha img) :=
        mem_content.mpr ⟨hx, hy, by
          rw [setAlpha_alpha, if_neg hw]
          decide⟩
      rw [hempty] at hmem
      exact absurd hmem (Finset.not_mem_empty _)
  | some box =>
    left
    have hout : process_icon img = crop (setAlpha img) box := by
      simp only [process_icon, hbox]
    rw [hout, getbbox_crop hbox]
    exact rfl

/-! ### Claim C5 -/

/-- A 0×0 image: a degenerate but well-formed grid. -/
def emptyImage : Image :=
  { width := 0, height := 0, pixel := fun _ _ => ⟨0, 0, 0, 255⟩ }

/-- C5 as stated fails on an image with no pixels: it has no pixel
whose channels all exceed 240, yet the computed bounding box is absent
rather than equal to the entire image. -/
theorem no_background_full_bbox_cex :
    (∀ x < emptyImage.width, ∀ y < emptyImage.height,
      ¬(240 < (emptyImage.pixel x y).r ∧ 240 < (emptyImage.pixel x y).g ∧
        240 < (emptyImage.pixel x y).b)) ∧
    getbbox (setAlpha emptyImage) ≠
      some ⟨0, 0, emptyImage.width, emptyImage.height⟩ := by
  decide

/-- C5 (amended with a nonempty image): an input of positive width and
height with no background pixel has bounding box equal to the entire
image, output of the input's full dimensions, and all alpha 255. -/
theorem no_background_full_bbox (img : Image)
    (hw : 0 < img.width) (hh : 0 < img.height)
    (h : ∀ x < img.width, ∀ y < img.height,
      ¬(240 < (img.pixel x y).r ∧ 240 < (img.pixel x y).g ∧
        240 < (img.pixel x y).b)) :
    getbbox (setAlpha img) = some ⟨0, 0, img.width, img.height⟩ ∧
    (process_icon img).width = img.width ∧
    (process_icon img).height = img.height ∧
    ∀ x < img.width, ∀ y < img.height,
      ((process_icon img).pixel x y).a = 255 := by
  have hnw : ∀ x, x < img.width → ∀ y, y < img.height →
      ¬ white_areas (img.pixel x y) = true :=
    fun x hx y hy hwt => h x hx y hy ((white_areas_iff _).mp hwt)
  have hmem : ∀ x, x < img.width → ∀ y, y < img.height →
      (x, y) ∈ content (setAlpha img) := by
    intro x hx y hy
    refine mem_content.mpr ⟨hx, hy, ?_⟩
    rw [setAlpha_alpha, if_neg (hnw x hx y hy)]
    decide
  have hbox : getbbox (setAlpha img) =
      some ⟨0, 0, img.width, img.height⟩ := by
    show bboxOf (content (setAlpha img)) = _
    rw [bboxOf_eq_some_iff]
    refine ⟨⟨(0, 0), hmem 0 hw 0 hh, rfl⟩, ⟨(0, 0), hmem 0 hw 0 hh, rfl⟩,
      ⟨(img.width - 1, 0), hmem _ (by omega) 0 hh, by simp only; omega⟩,
      ⟨(0, img.height - 1), hmem 0 hw _ (by omega), by simp only; omega⟩,
      ?_⟩
    intro c hc
    obtain ⟨h1, h2, -⟩ := mem_content.mp hc
    simp only [setAlpha] at h1 h2
    simp only
    omega
  have hout : process_icon img = crop (setAlpha img)
      ⟨0, 0, img.width, img.height⟩ := by
    simp only [process_icon, hbox]
  refine ⟨hbox, ?_, ?_, ?_⟩
  · rw [hout]
    simp only [crop]
    omega
  · rw [hout]
    simp only [crop]
    omega
  · intro x hx y hy
    rw [hout]
    show ((setAlpha img).pixel (0 + x) (0 + y)).a = 255
    rw [Nat.zero_add, Nat.zero_add, setAlpha_alpha,
      if_neg (hnw x hx y hy)]

/-- A concrete 1×1 fully dark image. -/
def blackImage : Image :=
  { width := 1, height := 1, pixel := fun _ _ => ⟨0, 0, 0, 0⟩ }

theorem no_background_full_bbox_witness :
    0 < blackImage.width ∧ 0 < blackImage.height ∧
    (∀ x < blackImage.width, ∀ y < blackImage.height,
      ¬(240 < (blackImage.pixel x y).r ∧ 240 < (blackImage.pixel x y).g ∧
        240 < (blackImage.pixel x y).b)) ∧
    (getbbox (setAlpha blackImage) =
        some ⟨0, 0, blackImage.width, blackImage.height⟩ ∧
      (process_icon blackImage).width = blackImage.width ∧
      (process_icon blackImage).height = blackImage.height ∧
      ∀ x < blackImage.width, ∀ y < blackImage.height,
        ((process_icon blackImage).pixel x y).a = 255) :=
  ⟨by decide, by decide, by decide,
    no_background_full_bbox blackImage (by decide) (by decide) (by decide)⟩

/-! ### Claim C6 -/

/-- The spec's concrete scenario: a 10×10 white canvas with a 4×4 black
square occupying pixels (3,3) through (6,6). -/
def demoInput : Image :=
  { width := 10, height := 10
    pixel := fun x y =>
      if 3 ≤ x ∧ x ≤ 6 ∧ 3 ≤ y ∧ y ≤ 6 then ⟨0, 0, 0, 255⟩
      else ⟨255, 255, 255, 255⟩ }

/-- C6: processing the 10×10 white canvas with the 4×4 black square at
(3,3)-(6,6) yields a 4×4 output all of whose pixels are opaque black. -/
theorem demo_scenario_output :
    (process_icon demoInput).width = 4 ∧
    (process_icon demoInput).height = 4 ∧
    ∀ x < 4, ∀ y < 4, (process_icon demoInput).pixel x y = ⟨0, 0, 0, 255⟩ := by
  decide

/-! ### Claim C7 -/

theorem imageExt {i1 i2 : Image} (hw : i1.width = i2.width)
    (hh : i1.height = i2.height)
    (hp : ∀ x y, i1.pixel x y = i2.pixel x y) : i1 = i2 := by
  cases i1
  cases i2
  simp only [Image.mk.injEq]
  exact ⟨hw, hh, funext fun x => funext fun y => hp x y⟩

/-- The pipeline is idempotent outright: its output is a fixed point. -/
theorem process_icon_idem (img : Image) :
    process_icon (process_icon img) = process_icon img := by
  have hss : setAlpha (setAlpha img) = setAlpha img := rfl
  cases hbox : getbbox (setAlpha img) with
  | none =>
    have hout : process_icon img = setAlpha img := by
      simp only [process_icon, hbox]
    rw [hout]
    simp only [process_icon, hss, hbox]
  | some box =>
    have hout : process_icon img = crop (setAlpha img) box := by
      simp only [process_icon, hbox]
    rw [hout]
    have hcomm : setAlpha (crop (setAlpha img) box) =
        crop (setAlpha img) box := rfl
    have hbox2 := getbbox_crop hbox
    simp only [process_icon, hcomm, hbox2]
    apply imageExt
    · exact rfl
    · exact rfl
    · intro x y
      show (crop (setAlpha img) box).pixel (0 + x) (0 + y) =
        (crop (setAlpha img) box).pixel x y
      rw [Nat.zero_add, Nat.zero_add]

/-- C7: when no opaque pixel of the output is background-colored (which
the pipeline in fact guarantees), running the processor on its own
output preserves the dimensions and every pixel, and the bounding box
of the second output equals (hence is no larger than) the first's. -/
theorem process_icon_idempotent_on_output (img : Image)
    (h : ∀ x < (process_icon img).width, ∀ y < (process_icon img).height,
      ((process_icon img).pixel x y).a ≠ 0 →
      ¬(240 < ((process_icon img).pixel x y).r ∧
        240 < ((process_icon img).pixel x y).g ∧
        240 < ((process_icon img).pixel x y).b)) :
    (process_icon (process_icon img)).width = (process_icon img).width ∧
    (process_icon (process_icon img)).height = (process_icon img).height ∧
    (∀ x < (process_icon img).width, ∀ y < (process_icon img).height,
      (process_icon (process_icon img)).pixel x y =
        (process_icon img).pixel x y) ∧
    getbbox (process_icon (process_icon img)) =
      getbbox (process_icon img) := by
  rw [process_icon_idem]
  exact ⟨rfl, rfl, fun x _ y _ => rfl, rfl⟩

theorem process_icon_idempotent_on_output_witness :
    (∀ x < (process_icon blackImage).width,
      ∀ y < (process_icon blackImage).height,
      ((process_icon blackImage).pixel x y).a ≠ 0 →
      ¬(240 < ((process_icon blackImage).pixel x y).r ∧
        240 < ((process_icon blackImage).pixel x y).g ∧
        240 < ((process_icon blackImage).pixel x y).b)) ∧
    ((process_icon (process_icon blackImage)).width =
        (process_icon blackImage).width ∧
      (process_icon (process_icon blackImage)).height =
        (process_icon blackImage).height ∧
      (∀ x < (process_icon blackImage).width,
        ∀ y < (process_icon blackImage).height,
        (process_icon (process_icon blackImage)).pixel x y =
          (process_icon blackImage).pixel x y) ∧
      getbbox (process_icon (process_icon blackImage)) =
        getbbox (process_icon blackImage)) :=
  ⟨by decide, process_icon_idempotent_on_output blackImage (by decide)⟩

/-! ### Claim C8 -/

/-- The top-left corner of the applied crop: the bounding box corner
when a crop happens, `(0, 0)` for the identity crop. -/
def cropOrigin (img : Image) : Nat × Nat :=
  match getbbox (setAlpha img) with
  | some box => (box.left, box.top)
  | none => (0, 0)

/-- C8: every output pixel's red, green and blue channels equal those
of the input pixel at the crop-shifted position; only alpha and the
extent ever change. -/
theorem color_channels_preserved (img : Image) (x y : Nat)
    (hx : x < (process_icon img).width)
    (hy : y < (process_icon img).height) :
    ((process_icon img).pixel x y).r =
      (img.pixel ((cropOrigin img).1 + x) ((cropOrigin img).2 + y)).r ∧
    ((process_icon img).pixel x y).g =
      (img.pixel ((cropOrigin img).1 + x) ((cropOrigin img).2 + y)).g ∧
    ((process_icon img).pixel x y).b =
      (img.pixel ((cropOrigin img).1 + x) ((cropOrigin img).2 + y)).b := by
  cases hbox : getbbox (setAlpha img) with
  | none =>
    have hout : process_icon img = setAlpha img := by
      simp only [process_icon, hbox]
    have horig : cropOrigin img = (0, 0) := by
      simp only [cropOrigin, hbox]
    rw [hout, horig]
    simp only [Nat.zero_add]
    exact setAlpha_rgb img x y
  | some box =>
    have hout : process_icon img = crop (setAlpha img) box := by
      simp only [process_icon, hbox]
    have horig : cropOrigin img = (box.left, box.top) := by
      simp only [cropOrigin, hbox]
    rw [hout, horig]
    exact ⟨rfl, rfl, rfl⟩

theorem color_channels_preserved_witness :
    0 < (process_icon dotImage).width ∧ 0 < (process_icon dotImage).height ∧
    (((process_icon dotImage).pixel 0 0).r =
      (dotImage.pixel ((cropOrigin dotImage).1 + 0)
        ((cropOrigin dotImage).2 + 0)).r ∧
    ((process_icon dotImage).pixel 0 0).g =
      (dotImage.pixel ((cropOrigin dotImage).1 + 0)
        ((cropOrigin dotImage).2 + 0)).g ∧
    ((process_icon dotImage).pixel 0 0).b =
      (dotImage.pixel ((cropOrigin dotImage).1 + 0)
        ((cropOrigin dotImage).2 + 0)).b) :=
  ⟨by decide, by decide,
    color_channels_preserved dotImage 0 0 (by decide) (by decide)⟩

/-! ### Claim C9 -/

/-- C9: with fewer than two positional arguments the script prints the
usage line and exits normally with code 0 without running the
processor; with two or more it runs the processor on the first two. -/
theorem cli_usage_behavior (script : String) (args : List String) :
    (args.length < 2 →
      cliMain (script :: args) =
        { usagePrinted := true, exitCode := some 0, invoked := none }) ∧
    (2 ≤ args.length →
      (cliMain (script :: args)).usagePrinted = false ∧
      (cliMain (script :: args)).invoked =
        some (args.getD 0 "", args.getD 1 "")) := by
  constructor
  · intro h
    have hc : (script :: args).length < 3 := by
      simp only [List.length_cons]
      omega
    rw [cliMain, if_pos hc]
  · intro h
    have hc : ¬ (script :: args).length < 3 := by
      simp only [List.length_cons]
      omega
    rw [cliMain, if_neg hc]
    exact ⟨rfl, rfl⟩

theorem cli_usage_behavior_witness :
    ([] : List String).length < 2 ∧
    cliMain ["script.py"] =
      { usagePrinted := true, exitCode := some 0, invoked := none } ∧
    2 ≤ (["in.png", "out.png"] : List String).length ∧
    (cliMain ["script.py", "in.png", "out.png"]).usagePrinted = false ∧
    (cliMain ["script.py", "in.png", "out.png"]).invoked =
      some ("in.png", "out.png") :=
  ⟨by decide, (cli_usage_behavior "script.py" []).1 (by decide),
    by decide,
    ((cli_usage_behavior "script.py" ["in.png", "out.png"]).2 (by decide)).1,
    ((cli_usage_behavior "script.py" ["in.png", "out.png"]).2 (by decide)).2⟩

/-! ### Claim C10 -/

/-- Two `Image` values describe the same decoded input when they agree
on dimensions and on every pixel inside the extent (the pixel function
outside the extent is representation junk). -/
def sameDecoded (i1 i2 : Image) : Prop :=
  i1.width = i2.width ∧ i1.height = i2.height ∧
  ∀ x < i1.width, ∀ y < i1.height, i1.pixel x y = i2.pixel x y

instance sameDecodedDec (i1 i2 : Image) : Decidable (sameDecoded i1 i2) := by
  unfold sameDecoded
  infer_instance

theorem mem_content_setAlpha {img : Image} {c : Nat × Nat} :
    c ∈ content (setAlpha img) ↔
      c.1 < img.width ∧ c.2 < img.height ∧
        white_areas (img.pixel c.1 c.2) = false := by
  rw [mem_content]
  constructor
  · rintro ⟨h1, h2, h3⟩
    refine ⟨h1, h2, ?_⟩
    rw [setAlpha_alpha] at h3
    cases hb : white_areas (img.pixel c.1 c.2) with
    | false => rfl
    | true =>
      rw [if_pos hb] at h3
      exact absurd rfl h3
  · rintro ⟨h1, h2, h3⟩
    refine ⟨h1, h2, ?_⟩
    rw [setAlpha_alpha, h3]
    decide

/-- C10: the pipeline is deterministic — any two runs on the same
decoded input (same dimensions, same pixels inside the extent) produce
outputs with the same dimensions and the same pixels. -/
theorem process_icon_deterministic (i1 i2 : Image)
    (h : sameDecoded i1 i2) :
    sameDecoded (process_icon i1) (process_icon i2) := by
  obtain ⟨hw, hh, hp⟩ := h
  have hset : ∀ x, x < i1.width → ∀ y, y < i1.height →
      (setAlpha i1).pixel x y = (setAlpha i2).pixel x y := by
    intro x hx y hy
    simp only [setAlpha]
    rw [hp x hx y hy]
  have hcontent : content (setAlpha i1) = content (setAlpha i2) := by
    ext c
    rw [mem_content_setAlpha, mem_content_setAlpha, hw, hh]
    constructor
    · rintro ⟨h1, h2, h3⟩
      refine ⟨h1, h2, ?_⟩
      rw [← hp c.1 (by rw [hw]; exact h1) c.2 (by rw [hh]; exact h2)]
      exact h3
    · rintro ⟨h1, h2, h3⟩
      refine ⟨h1, h2, ?_⟩
      rw [hp c.1 (by rw [hw]; exact h1) c.2 (by rw [hh]; exact h2)]
      exact h3
  have hbbox : getbbox (setAlpha i1) = getbbox (setAlpha i2) :=
    congrArg bboxOf hcontent
  cases hbox : getbbox (setAlpha i1) with
  | none =>
    have hb2 : getbbox (setAlpha i2) = none := hbbox.symm.trans hbox
    have ho1 : process_icon i1 = setAlpha i1 := by
      simp only [process_icon, hbox]
    have ho2 : process_icon i2 = setAlpha i2 := by
      simp only [process_icon, hb2]
    rw [ho1, ho2]
    exact ⟨hw, hh, hset⟩
  | some box =>
    have hb2 : getbbox (setAlpha i2) = some box := hbbox.symm.trans hbox
    have ho1 : process_icon i1 = crop (setAlpha i1) box := by
      simp only [process_icon, hbox]
    have ho2 : process_icon i2 = crop (setAlpha i2) box := by
      simp only [process_icon, hb2]
    rw [ho1, ho2]
    obtain ⟨hlr, htb, hrw, hbh⟩ := getbbox_subset hbox
    simp only [setAlpha] at hrw hbh
    refine ⟨rfl, rfl, ?_⟩
    intro x hx y hy
    simp only [crop] at hx hy ⊢
    have hxw : box.left + x < i1.width := by omega
    have hyh : box.top + y < i1.height := by omega
    exact hset _ hxw _ hyh

/-- A 1×1 dark image whose pixel function carries different junk
outside the extent than `blackImage`. -/
def blackImageAlt : Image :=
  { width := 1, height := 1
    pixel := fun x y =>
      if x = 0 ∧ y = 0 then ⟨0, 0, 0, 0⟩ else ⟨9, 9, 9, 9⟩ }

theorem process_icon_deterministic_witness :
    sameDecoded blackImage blackImageAlt ∧
    sameDecoded (process_icon blackImage) (process_icon blackImageAlt) :=
  ⟨by decide, process_icon_deterministic blackImage blackImageAlt (by decide)⟩
